import Mathlib

/-!
Shallow embedding of the spectral-coherence estimation library
(src/spectral_coherence/density.py, coherence.py, utils.py) together with
proofs about its stated properties.  Machine floating point is modelled by
exact real/complex arithmetic; numpy arrays by lists and finitely indexed
functions; Python assertions by an Except String monad.
-/

namespace SpectralCoherence

open scoped BigOperators

/-- Shorthand for the complex conjugate used by the numpy path (np.conj). -/
def conjC (z : ℂ) : ℂ := (starRingEnd ℂ) z

/-! ### utils.py : complex arithmetic built from float pairs (mx_real, mx_imag, mx_conj, mx_einsum) -/

/-- Embeds utils.mx_real: x.astype(float32) keeps the real part of a complex value. -/
def mxReal (z : ℂ) : ℝ := z.re

/-- Embeds utils.mx_imag: -(1j*x).astype(float32). -/
def mxImag (z : ℂ) : ℝ := -((Complex.I * z).re)

/-- Embeds utils.mx_conj: mx_real(x) - 1j*mx_imag(x). -/
def mxConj (z : ℂ) : ℂ := ((mxReal z : ℝ) : ℂ) - Complex.I * ((mxImag z : ℝ) : ℂ)

/-- Embeds utils.mx_einsum for the contraction patterns used by coherence.py:
both "fkm,fkm->fm" and "ikl,ikm->ilm" contract one shared axis, so per output
entry they compute a single sum over products, assembled from the real and
imaginary parts exactly as the source does. -/
def mxEinsumSum {B : ℕ} (a b : Fin B → ℂ) : ℂ :=
  ((((∑ k, mxReal (a k) * mxReal (b k)) - ∑ k, mxImag (a k) * mxImag (b k)) : ℝ) : ℂ)
    + Complex.I * ((((∑ k, mxReal (a k) * mxImag (b k)) + ∑ k, mxImag (a k) * mxReal (b k)) : ℝ) : ℂ)

lemma mxReal_eq (z : ℂ) : mxReal z = z.re := rfl

lemma mxImag_eq (z : ℂ) : mxImag z = z.im := by
  simp [mxImag, Complex.mul_re]

lemma mxConj_eq (z : ℂ) : mxConj z = conjC z := by
  apply Complex.ext <;>
    simp [mxConj, conjC, mxReal_eq, mxImag_eq, Complex.ext_iff]

lemma mxEinsumSum_eq {B : ℕ} (a b : Fin B → ℂ) :
    mxEinsumSum a b = ∑ k, a k * b k := by
  apply Complex.ext <;>
    simp [mxEinsumSum, mxReal_eq, mxImag_eq, Complex.re_sum, Complex.im_sum,
      Complex.mul_re, Complex.mul_im, Finset.sum_add_distrib, Finset.sum_sub_distrib]

/-! ### density.py : _smooth -/

/-- Embeds the circular padding step of density._smooth: the last
(B-1)//2 entries are prepended and the first (B-1)//2 entries appended. -/
def smoothPad {V : Type} (x : List V) (h : ℕ) : List V :=
  x.drop (x.length - h) ++ x ++ x.take h

/-- Embeds density._smooth: pad circularly by (B-1)//2 on each side, then
convolve with the length-B constant window of weight 1/B in valid mode.
Entry i of the valid-mode convolution is the window-weighted sum of padded
entries i..i+B-1.  Generic in the entry type, as the numpy code is in the
dtype. -/
def smooth (K : Type) [DivisionRing K] {V : Type} [AddCommMonoid V] [Module K V]
    (x : List V) (B : ℕ) : List V :=
  let n := x.length
  let h := (B - 1) / 2
  let padded := smoothPad x h
  (List.range n).map (fun i => ∑ k ∈ Finset.range B, ((B : K)⁻¹) • padded.getD (i + k) 0)

/-! ### density.py : _select_indices -/

/-- Embeds numpy round (np.round): round half to even (banker's rounding). -/
def roundHalfEven (q : ℚ) : ℤ :=
  let f := ⌊q⌋
  let r := q - f
  if r < 1/2 then f else if 1/2 < r then f + 1 else if Even f then f else f + 1

/-- Value of node i of np.linspace(0, n-1, t): i*(n-1)/(t-1).  As in numpy,
the single node of a one-point linspace is the start point 0 (here through
division by zero yielding 0). -/
def linNode (n t i : ℕ) : ℚ := (i : ℚ) * ((n : ℚ) - 1) / ((t : ℚ) - 1)

/-- Embeds density._select_indices: all indices when n ≤ target_count,
otherwise np.round(np.linspace(0, n-1, target_count)).astype(int). -/
def selectIndices (n t : ℕ) : List ℕ :=
  if n ≤ t then List.range n
  else (List.range t).map (fun i => (roundHalfEven (linNode n t i)).toNat)

/-! ### density.py : frequency grid bookkeeping -/

/-- Embeds np.fft.fftfreq(n): index j maps to j/n for j below the positive
cutoff (n+1)/2 and to (j-n)/n above it. -/
def fftfreq (n : ℕ) (j : ℕ) : ℚ :=
  if j < (n + 1) / 2 then (j : ℚ) / n else ((j : ℚ) - n) / n

/-- Embeds idx = np.argsort(np.fft.fftfreq(n)): the fftfreq values are
distinct, and position i of the ascending order holds raw index
(i + (n+1)/2) mod n. -/
def sortedFreqIdx (n : ℕ) (i : ℕ) : ℕ := (i + (n + 1) / 2) % n

/-- Embeds freqs = np.fft.fftfreq(n) reordered in ascending order. -/
def sortedFreqs (n : ℕ) (i : ℕ) : ℚ := fftfreq n (sortedFreqIdx n i)

/-- Embeds density._get_B_spaced_freqs_mask: true at every B-th index. -/
def getBSpacedFreqsMask (n B : ℕ) : List Bool :=
  (List.range n).map (fun j => decide (j % B = 0))

/-! ### density.py : _periodogram -/

/-- Embeds np.fft.fft(x, axis=0, norm="ortho") at raw frequency index k. -/
noncomputable def fftOrtho (n m : ℕ) (x : Fin n → Fin m → ℂ) (k : ℕ) (c : Fin m) : ℂ :=
  (∑ t : Fin n, x t c *
      Complex.exp (-(2 * (Real.pi : ℂ) * Complex.I) * (k : ℂ) * ((t : ℕ) : ℂ) / (n : ℂ)))
    / ((Real.sqrt n : ℝ) : ℂ)

/-- The orthonormalized Fourier coefficient of x at an arbitrary rational
frequency nu, used by the factored (half-periodogram) path. -/
noncomputable def fftAt (n m : ℕ) (x : Fin n → Fin m → ℂ) (nu : ℚ) (c : Fin m) : ℂ :=
  (∑ t : Fin n, x t c *
      Complex.exp (-(2 * (Real.pi : ℂ) * Complex.I) * ((nu : ℚ) : ℂ) * ((t : ℕ) : ℂ)))
    / ((Real.sqrt n : ℝ) : ℂ)

/-- Embeds the frequency-sorted fft rows fft[idx] of density._periodogram. -/
noncomputable def sortedFft (n m : ℕ) (x : Fin n → Fin m → ℂ) (j : ℕ) : Fin m → ℂ :=
  fftOrtho n m x (sortedFreqIdx n j)

/-- Embeds one bin of np.einsum("ijm,ikm->ijk", fft, np.conj(fft)): the
outer product of the sorted Fourier coefficient vector with its own
conjugate. -/
noncomputable def periodogramMatAt (n m : ℕ) (x : Fin n → Fin m → ℂ) (j : ℕ) : Fin m → Fin m → ℂ :=
  fun l c => sortedFft n m x j l * conjC (sortedFft n m x j c)

/-- The full-grid periodogram stack in ascending frequency order. -/
noncomputable def periodogramList (n m : ℕ) (x : Fin n → Fin m → ℂ) : List (Fin m → Fin m → ℂ) :=
  (List.range n).map (periodogramMatAt n m x)

/-- Embeds np.arange(i - B//2, i + B//2 + 1) followed by np.mod(_, n):
the circular window of raw indices kept around a selected index. -/
def windowIndices (n B : ℕ) (i : ℕ) : List ℕ :=
  (List.range (B / 2 + B / 2 + 1)).map
    (fun (k : ℕ) => ((((i : ℤ) - ((B / 2 : ℕ) : ℤ) + (k : ℤ)) % (n : ℤ))).toNat)

/-- Embeds edge_indices = np.sort(np.unique(concatenated windows)): since
every window value lies in [0, n), the sorted deduplicated union is the
increasing enumeration of the indices of range n belonging to some window. -/
def edgeIndices (n t B : ℕ) : List ℕ :=
  (List.range n).filter
    (fun j => (selectIndices n t).any (fun i => decide (j ∈ windowIndices n B i)))

/-- Embeds density._periodogram.  The two asserts at its head become error
returns; the payload is (periodogram stack, frequencies, estimation mask). -/
noncomputable def periodogram (n m : ℕ) (x : Fin n → Fin m → ℂ) (nMaxFreqs : Option ℤ) (B : Option ℕ) :
    Except String (List (Fin m → Fin m → ℂ) × List ℚ × List Bool) :=
  if nMaxFreqs.isSome != B.isSome then
    .error ("n_max_freqs and B should be either both None or both not None")
  else
    match nMaxFreqs, B with
    | some t, some b =>
      if t ≤ 0 then .error ("n_max_freqs must be positive")
      else
        let idxs := selectIndices n t.toNat
        let estimatedFreqs := idxs.map (sortedFreqs n)
        let edges := edgeIndices n t.toNat b
        let ps := edges.map (periodogramMatAt n m x)
        let fr := edges.map (sortedFreqs n)
        let mask := fr.map (fun f => decide (f ∈ estimatedFreqs))
        .ok (ps, fr, mask)
    | _, _ =>
      .ok (periodogramList n m x, (List.range n).map (sortedFreqs n), List.replicate n true)

/-! ### density.py : _is_B_valid, validation and smoothed_periodogram -/

/-- Embeds density._is_B_valid. -/
def is_B_valid (B n : ℕ) : Bool :=
  decide (0 < B) && decide (B < n) && decide (B % 2 = 1)

/-- Kind of numpy dtype of a candidate array, as far as the validator cares. -/
inductive DtypeKind : Type
  | realK : DtypeKind
  | complexK : DtypeKind
  | otherK : DtypeKind
deriving DecidableEq

/-- Observable facts about a candidate input that the input validator
inspects: its number of dimensions, whether some entry is NaN or infinite,
and its dtype kind. -/
structure Candidate : Type where
  ndim : ℕ
  hasNonFinite : Bool
  dtypeKind : DtypeKind

/-- Modelled from the spec: utils.is_sane_time_series is imported by
density.py but its definition is not among the sources.  Per section 4.1 the
validator returns (valid, message); it fails when the candidate is not a
genuine 2-D array, when an entry is NaN or infinite, or when the dtype is
neither real nor complex numeric, and on failure the message is the
newline-joined concatenation of every violated condition. -/
def isSaneTimeSeries (c : Candidate) : Bool × String :=
  let checks : List (Bool × String) :=
    [(decide (c.ndim = 2), ("time series must be a 2-dimensional array")),
     (!c.hasNonFinite, ("time series must contain only finite values")),
     (decide (c.dtypeKind ≠ DtypeKind.otherK),
       ("time series must have a real or complex numeric dtype"))]
  (checks.all (fun p => p.1),
    String.intercalate ("\n") ((checks.filter (fun p => !p.1)).map (fun p => p.2)))

/-- Boolean-mask selection a[mask] of numpy. -/
def maskSelect {α : Type} (xs : List α) (bs : List Bool) : List α :=
  ((xs.zip bs).filter (fun p => p.2)).map (fun p => p.1)

/-- Embeds density.smoothed_periodogram: validate the input and B, compute
the (possibly subsampled) periodogram, smooth it, and keep the masked
frequencies. -/
noncomputable def smoothedPeriodogram (n m : ℕ) (c : Candidate) (x : Fin n → Fin m → ℂ) (B : ℕ)
    (nMaxFreqs : Option ℤ) :
    Except String (List (Fin m → Fin m → ℂ) × List ℚ) :=
  let s := isSaneTimeSeries c
  if !s.1 then .error s.2
  else if !(is_B_valid B n) then
    .error ("B must be positive, smaller than the number of samples, and odd")
  else do
    let (ps, fr, mask) ← periodogram n m x nMaxFreqs (if nMaxFreqs.isSome then some B else none)
    .ok (maskSelect (smooth ℂ ps B) mask, maskSelect fr mask)

/-! ### coherence.py and the factored (half-periodogram) path -/

/-- Modelled from the spec: density.half_smoothed_periodograms is imported by
coherence.py but its definition is not among the sources.  Per section 4.5
the factor at grid frequency f holds, for each offset b ranging symmetrically
over [-(B-1)/2, (B-1)/2], the orthonormalized Fourier coefficient of the
signal at frequency f + b/N, divided by sqrt(B). -/
noncomputable def halfPeriodogramAt (n m : ℕ) (x : Fin n → Fin m → ℂ) (B : ℕ) (f : ℚ) (b : Fin B)
    (c : Fin m) : ℂ :=
  fftAt n m x (f + (((b : ℕ) : ℚ) - (((B - 1) / 2 : ℕ) : ℚ)) / n) c / ((Real.sqrt B : ℝ) : ℂ)

/-- Modelled from the spec: the default frequency grid of the factored path,
B*(j/N - 1/2) for j in [0, N/B). -/
def defaultFreqs (n B : ℕ) : List ℚ :=
  (List.range (n / B)).map (fun j => (B : ℚ) * ((j : ℚ) / n - 1/2))

/-- Modelled from the spec: density.half_smoothed_periodograms raises a
domain error unless B is odd and 0 < B < N, and otherwise returns the stack
of half-periodogram factors over the requested (or default) grid. -/
noncomputable def halfSmoothedPeriodograms (n m : ℕ) (x : Fin n → Fin m → ℂ) (B : ℕ)
    (freqs : Option (List ℚ)) :
    Except String (List (Fin B → Fin m → ℂ) × List ℚ) :=
  if !(is_B_valid B n) then
    .error ("B must be odd and satisfy 0 < B < n_samples")
  else
    let fs := freqs.getD (defaultFreqs n B)
    .ok (fs.map (fun f => fun b c => halfPeriodogramAt n m x B f b c), fs)

/-- The per-channel squared-magnitude sum over the B axis of the
half-periodogram factor: mx_real(mx_einsum("fkm,fkm->fm", hSs, mx_conj(hSs)))
of coherence.half_coherences at one frequency and channel. -/
noncomputable def DsAt (n m : ℕ) (x : Fin n → Fin m → ℂ) (B : ℕ) (f : ℚ) (c : Fin m) : ℝ :=
  mxReal (mxEinsumSum (fun k => halfPeriodogramAt n m x B f k c)
    (fun k => mxConj (halfPeriodogramAt n m x B f k c)))

/-- Embeds hCs = hSs * (1 / mx.sqrt(Ds))[:, None, :] of
coherence.half_coherences at one frequency. -/
noncomputable def halfCoherenceAt (n m : ℕ) (x : Fin n → Fin m → ℂ) (B : ℕ) (f : ℚ) (b : Fin B)
    (c : Fin m) : ℂ :=
  halfPeriodogramAt n m x B f b c * (((Real.sqrt (DsAt n m x B f c))⁻¹ : ℝ) : ℂ)

/-- Embeds coherence.half_coherences over a frequency grid. -/
noncomputable def halfCoherences (n m : ℕ) (x : Fin n → Fin m → ℂ) (B : ℕ) (freqs : Option (List ℚ)) :
    Except String (List (Fin B → Fin m → ℂ) × List ℚ) := do
  let (_, fs) ← halfSmoothedPeriodograms n m x B freqs
  .ok (fs.map (fun f => fun b c => halfCoherenceAt n m x B f b c), fs)

/-- Embeds Cs = mx_einsum("ikl,ikm->ilm", hCs, mx_conj(hCs)) of
coherence.coherences at one frequency. -/
noncomputable def coherenceAt (n m : ℕ) (x : Fin n → Fin m → ℂ) (B : ℕ) (f : ℚ) (l c : Fin m) : ℂ :=
  mxEinsumSum (fun k => halfCoherenceAt n m x B f k l)
    (fun k => mxConj (halfCoherenceAt n m x B f k c))

/-- Embeds coherence.coherences. -/
noncomputable def coherences (n m : ℕ) (x : Fin n → Fin m → ℂ) (B : ℕ) (freqs : Option (List ℚ)) :
    Except String (List (Fin m → Fin m → ℂ) × List ℚ) := do
  let (_, fs) ← halfCoherences n m x B freqs
  .ok (fs.map (fun f => fun l c => coherenceAt n m x B f l c), fs)

/-- Modelled from the spec: smoothed_periodogram_factored contracts the
half-periodogram factor with its own conjugate over the B axis. -/
noncomputable def smoothedPeriodogramFactoredAt (n m : ℕ) (x : Fin n → Fin m → ℂ) (B : ℕ) (f : ℚ)
    (l c : Fin m) : ℂ :=
  mxEinsumSum (fun b => halfPeriodogramAt n m x B f b l)
    (fun b => mxConj (halfPeriodogramAt n m x B f b c))

/-! ### Helper lemmas: lists and smoothing -/

lemma getD_map_range {α : Type} (f : ℕ → α) (n i : ℕ) (d : α) (hi : i < n) :
    (((List.range n).map f).getD i d) = f i := by
  rw [List.getD_eq_getElem?_getD]
  simp [List.getElem?_map, List.getElem?_range, hi]

lemma smooth_length (K : Type) [DivisionRing K] {V : Type} [AddCommMonoid V] [Module K V]
    (x : List V) (B : ℕ) : (smooth K x B).length = x.length := by
  simp [smooth]

lemma smoothPad_length {V : Type} (x : List V) (h : ℕ) (hh : h ≤ x.length) :
    (smoothPad x h).length = x.length + 2 * h := by
  simp [smoothPad]
  omega

lemma smoothPad_getD {V : Type} [Zero V] (x : List V) (h : ℕ) (hh : h ≤ x.length)
    (p : ℕ) (hp : p < x.length + 2 * h) :
    (smoothPad x h).getD p 0 = x.getD ((p + (x.length - h)) % x.length) 0 := by
  have hn : 0 < x.length := by omega
  have h1 : (x.drop (x.length - h)).length = h := by simp; omega
  rcases lt_or_le p h with hcase | hcase
  · -- inside the prepended copy of the last h entries
    have hmod : (p + (x.length - h)) % x.length = x.length - h + p := by
      rw [Nat.mod_eq_of_lt (by omega)]; omega
    rw [smoothPad, List.append_assoc, hmod,
      List.getD_append _ _ _ _ (by omega : p < (x.drop (x.length - h)).length),
      List.getD_eq_getElem _ _ (by omega : p < (x.drop (x.length - h)).length),
      List.getElem_drop, List.getD_eq_getElem _ _ (by omega : x.length - h + p < x.length)]
  rcases lt_or_le p (h + x.length) with hcase2 | hcase2
  · -- inside the original list
    have hmod : (p + (x.length - h)) % x.length = p - h := by
      have hsplit : p + (x.length - h) = (p - h) + x.length := by omega
      rw [hsplit, Nat.add_mod_right, Nat.mod_eq_of_lt (by omega)]
    rw [smoothPad, List.append_assoc, hmod,
      List.getD_append_right _ _ _ _ (by omega : (x.drop (x.length - h)).length ≤ p), h1,
      List.getD_append _ _ _ _ (by omega : p - h < x.length)]
  · -- inside the appended copy of the first h entries
    have h2 : (x.take h).length = h := by simp; omega
    have hmod : (p + (x.length - h)) % x.length = p - h - x.length := by
      have hsplit : p + (x.length - h) = (p - h - x.length) + 2 * x.length := by omega
      rw [hsplit, Nat.add_mul_mod_self_right, Nat.mod_eq_of_lt (by omega)]
    rw [smoothPad, List.append_assoc, hmod,
      List.getD_append_right _ _ _ _ (by omega : (x.drop (x.length - h)).length ≤ p), h1,
      List.getD_append_right _ _ _ _ (by omega : x.length ≤ p - h),
      List.getD_eq_getElem _ _ (by rw [h2]; omega : p - h - x.length < (x.take h).length),
      List.getElem_take, List.getD_eq_getElem _ _ (by omega : p - h - x.length < x.length)]

lemma smooth_getD (K : Type) [DivisionRing K] {V : Type} [AddCommMonoid V] [Module K V]
    (x : List V) (B : ℕ) (hB : B % 2 = 1) (hh : (B - 1) / 2 ≤ x.length)
    (i : ℕ) (hi : i < x.length) :
    (smooth K x B).getD i 0 =
      (B : K)⁻¹ • ∑ k ∈ Finset.range B, x.getD ((i + k + (x.length - (B - 1) / 2)) % x.length) 0 := by
  rw [smooth]
  rw [getD_map_range _ _ _ _ hi, Finset.smul_sum]
  refine Finset.sum_congr rfl (fun k hk => ?_)
  rw [Finset.mem_range] at hk
  rw [smoothPad_getD x _ hh (i + k) (by omega)]

lemma smooth_one (K : Type) [DivisionRing K] {V : Type} [AddCommMonoid V] [Module K V]
    (x : List V) : smooth K x 1 = x := by
  apply List.ext_getElem
  · simp [smooth_length]
  · intro i h1 h2
    have h3 : i < x.length := by simpa using h2
    have h4 := smooth_getD K x 1 (by norm_num) (by simp) i h3
    rw [List.getD_eq_getElem _ _ h1] at h4
    rw [h4, Finset.sum_range_one]
    have h5 : (i + 0 + (x.length - (1 - 1) / 2)) % x.length = i := by
      simp [Nat.add_mod_right, Nat.mod_eq_of_lt h3]
    rw [h5, List.getD_eq_getElem _ _ h3]
    simp

lemma smooth_example : smooth ℚ ([1, 2, 3, 4, 5] : List ℚ) 3 = [8/3, 2, 3, 4, 10/3] := by
  apply List.ext_getElem (by simp [smooth_length])
  intro i h1 h2
  have hi : i < 5 := by simpa using h2
  have h4 := smooth_getD ℚ ([1, 2, 3, 4, 5] : List ℚ) 3 (by norm_num) (by norm_num) i
    (by simpa using hi)
  rw [List.getD_eq_getElem _ _ h1] at h4
  rw [h4]
  interval_cases i <;>
    norm_num [Finset.sum_range_succ, List.getD_cons_zero, List.getD_cons_succ]

/-- C4: for every array x of shape (n, M, M) and every odd B with
(B-1)/2 ≤ n, _smooth(x, B) has the same shape and its entry at frequency
index i is the arithmetic mean of the B entries at indices (i+k) mod n for
k in [-(B-1)/2, (B-1)/2] (circular wrap); for B=3 on [1,2,3,4,5] the result
is [8/3, 2, 3, 4, 10/3], and for B=1 the result equals the input. -/
theorem c4_smooth_circular (M : ℕ) (xc : List (Fin M → Fin M → ℂ)) (xq : List ℚ) (B : ℕ)
    (hB : B % 2 = 1) (hh : (B - 1) / 2 ≤ xc.length) :
    ((smooth ℂ xc B).length = xc.length ∧
      ∀ i < xc.length, (smooth ℂ xc B).getD i 0 =
        (B : ℂ)⁻¹ • ∑ k ∈ Finset.range B,
          xc.getD ((i + k + (xc.length - (B - 1) / 2)) % xc.length) 0) ∧
    smooth ℚ ([1, 2, 3, 4, 5] : List ℚ) 3 = [8/3, 2, 3, 4, 10/3] ∧
    smooth ℚ xq 1 = xq := by
  exact ⟨⟨smooth_length ℂ xc B, fun i hi => smooth_getD ℂ xc B hB hh i hi⟩,
    smooth_example, smooth_one ℚ xq⟩

/-- Witness for c4_smooth_circular at M = 1, xc a concrete singleton list,
xq = [7], B = 3. -/
theorem c4_smooth_circular_witness :
    (3 % 2 = 1 ∧ (3 - 1) / 2 ≤ ([fun _ _ => (1 : ℂ)] : List (Fin 1 → Fin 1 → ℂ)).length) ∧
    (((smooth ℂ ([fun _ _ => (1 : ℂ)] : List (Fin 1 → Fin 1 → ℂ)) 3).length =
        ([fun _ _ => (1 : ℂ)] : List (Fin 1 → Fin 1 → ℂ)).length ∧
      ∀ i < ([fun _ _ => (1 : ℂ)] : List (Fin 1 → Fin 1 → ℂ)).length,
        (smooth ℂ ([fun _ _ => (1 : ℂ)] : List (Fin 1 → Fin 1 → ℂ)) 3).getD i 0 =
          (3 : ℂ)⁻¹ • ∑ k ∈ Finset.range 3,
            ([fun _ _ => (1 : ℂ)] : List (Fin 1 → Fin 1 → ℂ)).getD
              ((i + k + (([fun _ _ => (1 : ℂ)] : List (Fin 1 → Fin 1 → ℂ)).length - (3 - 1) / 2)) %
                ([fun _ _ => (1 : ℂ)] : List (Fin 1 → Fin 1 → ℂ)).length) 0) ∧
    smooth ℚ ([1, 2, 3, 4, 5] : List ℚ) 3 = [8/3, 2, 3, 4, 10/3] ∧
    smooth ℚ ([7] : List ℚ) 1 = [7]) :=
  ⟨⟨by decide, by decide⟩, c4_smooth_circular 1 [fun _ _ => (1 : ℂ)] [7] 3 (by decide) (by decide)⟩

/-! ### Helper lemmas: banker's rounding and index selection -/

lemma roundHalfEven_le (q : ℚ) : (roundHalfEven q : ℚ) ≤ q + 1/2 := by
  have h0 : (⌊q⌋ : ℚ) ≤ q := Int.floor_le q
  have h1 : q < ⌊q⌋ + 1 := Int.lt_floor_add_one q
  rw [roundHalfEven]
  split_ifs with hr1 hr2 hev
  · push_cast
    linarith
  · push_cast
    linarith
  · push_cast
    linarith
  · push_cast
    linarith

lemma le_roundHalfEven (q : ℚ) : q - 1/2 ≤ (roundHalfEven q : ℚ) := by
  have h0 : (⌊q⌋ : ℚ) ≤ q := Int.floor_le q
  have h1 : q < ⌊q⌋ + 1 := Int.lt_floor_add_one q
  rw [roundHalfEven]
  split_ifs with hr1 hr2 hev
  · push_cast
    linarith
  · push_cast
    linarith
  · push_cast
    linarith
  · push_cast
    linarith

lemma roundHalfEven_intCast (z : ℤ) : roundHalfEven (z : ℚ) = z := by
  rw [roundHalfEven]
  norm_num

lemma roundHalfEven_natCast (k : ℕ) : roundHalfEven (k : ℚ) = (k : ℤ) := by
  have := roundHalfEven_intCast (k : ℤ)
  rw [← this]
  norm_num

lemma roundHalfEven_lt_of_add_one_lt (a b : ℚ) (h : a + 1 < b) :
    roundHalfEven a < roundHalfEven b := by
  have ha := roundHalfEven_le a
  have hb := le_roundHalfEven b
  have : (roundHalfEven a : ℚ) < (roundHalfEven b : ℚ) := by linarith
  exact_mod_cast this

lemma roundHalfEven_nonneg (q : ℚ) (hq : 0 ≤ q) : 0 ≤ roundHalfEven q := by
  have := le_roundHalfEven q
  have h2 : (-1 : ℚ) < (roundHalfEven q : ℚ) := by linarith
  have : (-1 : ℤ) < roundHalfEven q := by exact_mod_cast h2
  omega

lemma selectIndices_eq_map (n t : ℕ) (h : ¬ n ≤ t) :
    selectIndices n t = (List.range t).map (fun i => (roundHalfEven (linNode n t i)).toNat) := by
  rw [selectIndices, if_neg h]

lemma linNode_nonneg (n t i : ℕ) (hn : 1 ≤ n) (ht : 1 ≤ t) : 0 ≤ linNode n t i := by
  rcases eq_or_lt_of_le ht with h1 | h1
  · rcases Nat.eq_or_lt_of_le (Nat.zero_le i) with h2 | h2
    · simp [linNode, ← h2]
    · apply div_nonneg
      · apply mul_nonneg (by positivity)
        have : (1 : ℚ) ≤ (n : ℚ) := by exact_mod_cast hn
        linarith
      · rw [← h1]
        norm_num
  · apply div_nonneg
    · apply mul_nonneg (by positivity)
      have : (1 : ℚ) ≤ (n : ℚ) := by exact_mod_cast hn
      linarith
    · have : (2 : ℚ) ≤ (t : ℚ) := by exact_mod_cast h1
      linarith

lemma linNode_le (n t i : ℕ) (hn : 1 ≤ n) (hi : i < t) : linNode n t i ≤ (n : ℚ) - 1 := by
  rcases Nat.lt_or_ge t 2 with h1 | h1
  · have : i = 0 := by omega
    simp [linNode, this]
    have : (1 : ℚ) ≤ (n : ℚ) := by exact_mod_cast hn
    linarith
  · have ht1 : (0 : ℚ) < (t : ℚ) - 1 := by
      have : (2 : ℚ) ≤ (t : ℚ) := by exact_mod_cast h1
      linarith
    rw [linNode, div_le_iff₀ ht1]
    have hi1 : (i : ℚ) ≤ (t : ℚ) - 1 := by
      have : (i : ℚ) + 1 ≤ (t : ℚ) := by exact_mod_cast hi
      linarith
    have hn1 : (0 : ℚ) ≤ (n : ℚ) - 1 := by
      have : (1 : ℚ) ≤ (n : ℚ) := by exact_mod_cast hn
      linarith
    nlinarith

lemma selectIndices_mem_lt (n t : ℕ) (hn : 1 ≤ n) : ∀ j ∈ selectIndices n t, j < n := by
  intro j hj
  by_cases h : n ≤ t
  · rw [selectIndices, if_pos h] at hj
    exact List.mem_range.mp hj
  · rw [selectIndices_eq_map n t h] at hj
    obtain ⟨i, hi, rfl⟩ := List.mem_map.mp hj
    rw [List.mem_range] at hi
    have ht : 1 ≤ t := by omega
    have hub := roundHalfEven_le (linNode n t i)
    have hlin := linNode_le n t i hn hi
    have hlt : (roundHalfEven (linNode n t i) : ℚ) < (n : ℚ) := by linarith
    have hlt2 : roundHalfEven (linNode n t i) < (n : ℤ) := by exact_mod_cast hlt
    rw [Int.toNat_lt' (by omega : n ≠ 0)]
    exact hlt2

lemma selectIndices_pairwise (n t : ℕ) (hn : 1 ≤ n) :
    List.Pairwise (· < ·) (selectIndices n t) := by
  by_cases h : n ≤ t
  · rw [selectIndices, if_pos h]
    exact List.pairwise_lt_range n
  · rw [selectIndices_eq_map n t h]
    have ht2 : 1 ≤ t ∨ t = 0 := by omega
    refine (List.pairwise_map).mpr ?_
    refine List.Pairwise.imp_of_mem ?_ (List.pairwise_lt_range t)
    intro i j hi hj hij
    rw [List.mem_range] at hi hj
    have ht1 : (0 : ℚ) < (t : ℚ) - 1 ∨ t = 1 := by
      rcases Nat.lt_or_ge t 2 with h1 | h1
      · right
        omega
      · left
        have : (2 : ℚ) ≤ (t : ℚ) := by exact_mod_cast h1
        linarith
    rcases ht1 with ht1 | ht1
    · have hstep : linNode n t i + 1 < linNode n t j := by
        have hij1 : (1 : ℚ) ≤ (j : ℚ) - (i : ℚ) := by
          have : (i : ℚ) + 1 ≤ (j : ℚ) := by exact_mod_cast hij
          linarith
        have hnt : (t : ℚ) - 1 < (n : ℚ) - 1 := by
          have ht' : (t : ℚ) < (n : ℚ) := by exact_mod_cast (by omega : t < n)
          linarith
        have hd : (1 : ℚ) < ((n : ℚ) - 1) / ((t : ℚ) - 1) := by
          rw [lt_div_iff₀ ht1]
          linarith
        have hdiff : linNode n t j - linNode n t i =
            ((j : ℚ) - (i : ℚ)) * (((n : ℚ) - 1) / ((t : ℚ) - 1)) := by
          rw [linNode, linNode]
          ring
        nlinarith [hdiff, hd, hij1]
      have hmono := roundHalfEven_lt_of_add_one_lt _ _ hstep
      have hnn := roundHalfEven_nonneg (linNode n t i) (linNode_nonneg n t i hn (by omega))
      omega
    · subst ht1
      omega

lemma selectIndices_length (n t : ℕ) : (selectIndices n t).length = min n t := by
  by_cases h : n ≤ t
  · rw [selectIndices, if_pos h]
    simp
    omega
  · rw [selectIndices_eq_map n t h]
    simp
    omega

lemma selectIndices_nodup (n t : ℕ) (hn : 1 ≤ n) : (selectIndices n t).Nodup :=
  (selectIndices_pairwise n t hn).imp (fun h => Nat.ne_of_lt h)

lemma selectIndices_zero_mem (n t : ℕ) (hn : 1 ≤ n) (ht : 1 ≤ t) : 0 ∈ selectIndices n t := by
  by_cases h : n ≤ t
  · rw [selectIndices, if_pos h]
    rw [List.mem_range]
    omega
  · rw [selectIndices_eq_map n t h]
    refine List.mem_map.mpr ⟨0, List.mem_range.mpr (by omega), ?_⟩
    have h0 : linNode n t 0 = 0 := by simp [linNode]
    rw [h0, show (0 : ℚ) = ((0 : ℤ) : ℚ) by norm_num, roundHalfEven_intCast]
    simp

lemma selectIndices_last_mem (n t : ℕ) (ht : 2 ≤ t) (h : t < n) :
    (n - 1) ∈ selectIndices n t := by
  rw [selectIndices_eq_map n t (by omega)]
  refine List.mem_map.mpr ⟨t - 1, List.mem_range.mpr (by omega), ?_⟩
  have ht1 : ((t : ℚ) - 1) ≠ 0 := by
    have h2 : (2 : ℚ) ≤ (t : ℚ) := by exact_mod_cast ht
    intro hc
    rw [sub_eq_zero] at hc
    rw [hc] at h2
    norm_num at h2
  have hval : linNode n t (t - 1) = (n : ℚ) - 1 := by
    rw [linNode]
    have hc : ((t - 1 : ℕ) : ℚ) = (t : ℚ) - 1 := by
      push_cast [Nat.cast_sub (by omega : 1 ≤ t)]
      ring
    rw [hc, mul_comm, mul_div_assoc, div_self ht1, mul_one]
  rw [hval]
  have hc2 : ((n : ℚ) - 1) = (((n - 1 : ℕ) : ℤ) : ℚ) := by
    push_cast [Nat.cast_sub (by omega : 1 ≤ n)]
    ring
  rw [hc2, roundHalfEven_intCast]
  simp

lemma roundHalfEven_zero : roundHalfEven 0 = 0 := by
  rw [show (0 : ℚ) = ((0 : ℤ) : ℚ) by norm_num, roundHalfEven_intCast]

lemma selectIndices_two_one : selectIndices 2 1 = [0] := by
  rw [selectIndices_eq_map 2 1 (by norm_num)]
  have h0 : linNode 2 1 0 = 0 := by
    rw [linNode]
    norm_num
  simp [List.range_succ, h0, roundHalfEven_zero]

lemma selectIndices_ten_three : selectIndices 10 3 = [0, 4, 9] := by
  rw [selectIndices_eq_map 10 3 (by norm_num)]
  have h0 : linNode 10 3 0 = 0 := by
    rw [linNode]
    norm_num
  have h1 : linNode 10 3 1 = 9/2 := by
    rw [linNode]
    norm_num
  have h2 : linNode 10 3 2 = 9 := by
    rw [linNode]
    norm_num
  have r1 : roundHalfEven (9/2) = 4 := by
    rw [roundHalfEven]
    norm_num
    decide
  have r2 : roundHalfEven 9 = 9 := by
    rw [show (9 : ℚ) = ((9 : ℤ) : ℚ) by norm_num, roundHalfEven_intCast]
  simp [List.range_succ, h0, h1, h2, roundHalfEven_zero, r1, r2]

/-- C6 counterexample: at n = 2, target_count = 1 (both ≥ 1, and n >
target_count so the rounding branch is taken) _select_indices returns [0],
which does not contain the last index n - 1 = 1, contradicting the claim
that the last index is always included once n > target_count. -/
theorem c6_counterexample :
    1 ≤ 2 ∧ 1 ≤ 1 ∧ ¬ (2 ≤ 1) ∧ selectIndices 2 1 = [0] ∧ (2 - 1) ∉ selectIndices 2 1 := by
  refine ⟨by norm_num, by norm_num, by norm_num, selectIndices_two_one, ?_⟩
  rw [selectIndices_two_one]
  simp

/-- C6 (amended): for n, target_count ≥ 1, _select_indices(n, target_count)
returns arange(n) when n ≤ target_count; otherwise it returns exactly
target_count distinct strictly increasing indices in [0, n) obtained by
banker's rounding of the linear interpolation between 0 and n-1, always
containing the first index 0, and containing the last index n-1 whenever
target_count ≥ 2; in particular _select_indices(10, 3) = [0, 4, 9]. -/
theorem c6_select_indices (n t : ℕ) (hn : 1 ≤ n) (ht : 1 ≤ t) :
    (n ≤ t → selectIndices n t = List.range n) ∧
    (t < n →
      (selectIndices n t).length = t ∧
      List.Pairwise (· < ·) (selectIndices n t) ∧
      (∀ j ∈ selectIndices n t, j < n) ∧
      0 ∈ selectIndices n t ∧
      (2 ≤ t → (n - 1) ∈ selectIndices n t)) ∧
    selectIndices 10 3 = [0, 4, 9] := by
  refine ⟨fun h => by rw [selectIndices, if_pos h], fun h => ?_, selectIndices_ten_three⟩
  refine ⟨?_, selectIndices_pairwise n t hn, selectIndices_mem_lt n t hn,
    selectIndices_zero_mem n t hn ht, fun h2 => selectIndices_last_mem n t h2 h⟩
  rw [selectIndices_length]
  omega

/-- Witness for c6_select_indices at n = 10, t = 3. -/
theorem c6_select_indices_witness :
    (1 ≤ 10 ∧ 1 ≤ 3) ∧
    ((10 ≤ 3 → selectIndices 10 3 = List.range 10) ∧
      (3 < 10 →
        (selectIndices 10 3).length = 3 ∧
        List.Pairwise (· < ·) (selectIndices 10 3) ∧
        (∀ j ∈ selectIndices 10 3, j < 10) ∧
        0 ∈ selectIndices 10 3 ∧
        (2 ≤ 3 → (10 - 1) ∈ selectIndices 10 3)) ∧
      selectIndices 10 3 = [0, 4, 9]) :=
  ⟨⟨by norm_num, by norm_num⟩, c6_select_indices 10 3 (by norm_num) (by norm_num)⟩

/-! ### Helper lemmas: frequency grid, windows, masks -/

lemma sortedFreqs_eq (n i : ℕ) (hn : 0 < n) (hi : i < n) :
    sortedFreqs n i = ((i : ℚ) - ((n / 2 : ℕ) : ℚ)) / n := by
  rw [sortedFreqs, sortedFreqIdx, fftfreq]
  rcases Nat.lt_or_ge (i + (n + 1) / 2) n with hc | hc
  · rw [Nat.mod_eq_of_lt hc, if_neg (by omega)]
    have hcast : ((i + (n + 1) / 2 : ℕ) : ℚ) - (n : ℚ) = (i : ℚ) - ((n / 2 : ℕ) : ℚ) := by
      have h1 : i + (n + 1) / 2 + n / 2 = i + n := by omega
      have h2 : ((i + (n + 1) / 2 + n / 2 : ℕ) : ℚ) = ((i + n : ℕ) : ℚ) := by rw [h1]
      push_cast at h2 ⊢
      linarith
    rw [hcast]
  · have hmod : (i + (n + 1) / 2) % n = i + (n + 1) / 2 - n := by
      rw [Nat.mod_eq_sub_mod hc, Nat.mod_eq_of_lt (by omega)]
    rw [hmod, if_pos (by omega)]
    have hcast : ((i + (n + 1) / 2 - n : ℕ) : ℚ) = (i : ℚ) - ((n / 2 : ℕ) : ℚ) := by
      have h1 : i + (n + 1) / 2 - n + (n / 2) = i := by omega
      have h2 : ((i + (n + 1) / 2 - n + n / 2 : ℕ) : ℚ) = (i : ℚ) := by rw [h1]
      push_cast at h2
      linarith
    rw [hcast]

lemma sortedFreqs_injOn (n i j : ℕ) (hn : 0 < n) (hi : i < n) (hj : j < n)
    (h : sortedFreqs n i = sortedFreqs n j) : i = j := by
  rw [sortedFreqs_eq n i hn hi, sortedFreqs_eq n j hn hj] at h
  have hn0 : (n : ℚ) ≠ 0 := by
    simpa using (by omega : n ≠ 0)
  rw [div_eq_div_iff hn0 hn0] at h
  have : (i : ℚ) = (j : ℚ) := by
    have := mul_right_cancel₀ hn0 h
    linarith
  exact_mod_cast this

lemma sortedFreqs_strictMono (n i j : ℕ) (hn : 0 < n) (hij : i < j) (hj : j < n) :
    sortedFreqs n i < sortedFreqs n j := by
  rw [sortedFreqs_eq n i hn (by omega), sortedFreqs_eq n j hn hj]
  have hn1 : (0 : ℚ) < (n : ℚ) := by exact_mod_cast hn
  rw [div_lt_div_iff₀ hn1 hn1]
  have hij1 : (i : ℚ) < (j : ℚ) := by exact_mod_cast hij
  nlinarith

lemma mem_windowIndices (n B i j : ℕ) :
    j ∈ windowIndices n B i ↔
      ∃ k : ℕ, k < B / 2 + B / 2 + 1 ∧
        ((((i : ℤ) - ((B / 2 : ℕ) : ℤ) + (k : ℤ)) % (n : ℤ)).toNat = j) := by
  rw [windowIndices, List.mem_map]
  constructor
  · rintro ⟨k, hk, rfl⟩
    exact ⟨k, List.mem_range.mp hk, rfl⟩
  · rintro ⟨k, hk, hj⟩
    exact ⟨k, List.mem_range.mpr hk, hj⟩

lemma self_mem_windowIndices (n B i : ℕ) (hi : i < n) : i ∈ windowIndices n B i := by
  rw [mem_windowIndices]
  refine ⟨B / 2, by omega, ?_⟩
  have h1 : (i : ℤ) - ((B / 2 : ℕ) : ℤ) + ((B / 2 : ℕ) : ℤ) = (i : ℤ) := by ring
  rw [h1, Int.emod_eq_of_lt (by positivity) (by exact_mod_cast hi)]
  simp

lemma windowIndices_lt (n B i : ℕ) (hn : 0 < n) : ∀ j ∈ windowIndices n B i, j < n := by
  intro j hj
  rw [mem_windowIndices] at hj
  obtain ⟨k, hk, rfl⟩ := hj
  have := Int.emod_lt_of_pos ((i : ℤ) - ((B / 2 : ℕ) : ℤ) + (k : ℤ))
    (by exact_mod_cast hn : (0 : ℤ) < (n : ℤ))
  rw [Int.toNat_lt' (by omega : n ≠ 0)]
  exact this

lemma mem_edgeIndices (n t B j : ℕ) :
    j ∈ edgeIndices n t B ↔ j < n ∧ ∃ i ∈ selectIndices n t, j ∈ windowIndices n B i := by
  simp [edgeIndices, List.mem_filter, List.any_eq_true, List.mem_range]

lemma edgeIndices_pairwise (n t B : ℕ) : List.Pairwise (· < ·) (edgeIndices n t B) :=
  (List.pairwise_lt_range n).filter _

lemma edgeIndices_nodup (n t B : ℕ) : (edgeIndices n t B).Nodup :=
  (edgeIndices_pairwise n t B).imp (fun h => Nat.ne_of_lt h)

lemma selectIndices_subset_edgeIndices (n t B : ℕ) (hn : 1 ≤ n) :
    ∀ i ∈ selectIndices n t, i ∈ edgeIndices n t B := by
  intro i hi
  have hlt := selectIndices_mem_lt n t hn i hi
  rw [mem_edgeIndices]
  exact ⟨hlt, i, hi, self_mem_windowIndices n B i hlt⟩

lemma maskSelect_nil_left {α : Type} (bs : List Bool) : maskSelect ([] : List α) bs = [] := by
  simp [maskSelect]

lemma maskSelect_cons {α : Type} (x : α) (xs : List α) (b : Bool) (bs : List Bool) :
    maskSelect (x :: xs) (b :: bs) =
      if b then x :: maskSelect xs bs else maskSelect xs bs := by
  cases b <;> simp [maskSelect, List.zip_cons_cons, List.filter_cons]

lemma maskSelect_length {α : Type} (xs : List α) (bs : List Bool) (h : xs.length = bs.length) :
    (maskSelect xs bs).length = bs.countP (fun b => b) := by
  induction xs generalizing bs with
  | nil =>
    cases bs with
    | nil => simp [maskSelect]
    | cons b bs => simp at h
  | cons a xs ih =>
    cases bs with
    | nil => simp at h
    | cons b bs =>
      have h2 : xs.length = bs.length := by simpa using h
      cases b <;> simp [maskSelect_cons, List.countP_cons, ih bs h2]

lemma nodup_filter_mem_length (u v : List ℕ) (hu : u.Nodup) (hv : v.Nodup)
    (hsub : ∀ a ∈ v, a ∈ u) :
    (u.filter (fun a => decide (a ∈ v))).length = v.length := by
  have h1 : (u.filter (fun a => decide (a ∈ v))).Nodup := hu.filter _
  have h2 : (u.filter (fun a => decide (a ∈ v))).Perm v := by
    rw [List.perm_ext_iff_of_nodup h1 hv]
    intro a
    simp [List.mem_filter]
    intro hav
    exact hsub a hav
  exact h2.length_eq

/-! ### Helper lemmas: reduction of the Except pipeline -/

lemma periodogram_none_eq (n m : ℕ) (x : Fin n → Fin m → ℂ) :
    periodogram n m x none none =
      .ok (periodogramList n m x, (List.range n).map (sortedFreqs n), List.replicate n true) :=
  rfl

lemma periodogram_some_eq (n m : ℕ) (x : Fin n → Fin m → ℂ) (t B : ℕ) (ht : 0 < t) :
    periodogram n m x (some (t : ℤ)) (some B) =
      .ok ((edgeIndices n t B).map (periodogramMatAt n m x),
        (edgeIndices n t B).map (sortedFreqs n),
        ((edgeIndices n t B).map (sortedFreqs n)).map
          (fun f => decide (f ∈ (selectIndices n t).map (sortedFreqs n)))) := by
  have h1 : ¬ ((t : ℤ) ≤ 0) := by
    simp
    omega
  rw [periodogram]
  simp [h1]

lemma periodogram_some_nonpos (n m : ℕ) (x : Fin n → Fin m → ℂ) (t : ℤ) (B : ℕ) (ht : t ≤ 0) :
    periodogram n m x (some t) (some B) = .error ("n_max_freqs must be positive") := by
  rw [periodogram]
  simp [ht]

lemma periodogram_mismatch_left (n m : ℕ) (x : Fin n → Fin m → ℂ) (t : ℤ) :
    periodogram n m x (some t) none =
      .error ("n_max_freqs and B should be either both None or both not None") := rfl

lemma periodogram_mismatch_right (n m : ℕ) (x : Fin n → Fin m → ℂ) (B : ℕ) :
    periodogram n m x none (some B) =
      .error ("n_max_freqs and B should be either both None or both not None") := rfl

lemma smoothedPeriodogram_insane (n m : ℕ) (c : Candidate) (x : Fin n → Fin m → ℂ) (B : ℕ)
    (nmf : Option ℤ) (hs : (isSaneTimeSeries c).1 = false) :
    smoothedPeriodogram n m c x B nmf = .error (isSaneTimeSeries c).2 := by
  rw [smoothedPeriodogram]
  simp [hs]

lemma smoothedPeriodogram_invalid_B (n m : ℕ) (c : Candidate) (x : Fin n → Fin m → ℂ) (B : ℕ)
    (nmf : Option ℤ) (hs : (isSaneTimeSeries c).1 = true) (hB : is_B_valid B n = false) :
    smoothedPeriodogram n m c x B nmf =
      .error ("B must be positive, smaller than the number of samples, and odd") := by
  rw [smoothedPeriodogram]
  simp [hs, hB]

lemma smoothedPeriodogram_none_eq (n m : ℕ) (c : Candidate) (x : Fin n → Fin m → ℂ) (B : ℕ)
    (hs : (isSaneTimeSeries c).1 = true) (hB : is_B_valid B n = true) :
    smoothedPeriodogram n m c x B none =
      .ok (maskSelect (smooth ℂ (periodogramList n m x) B) (List.replicate n true),
        maskSelect ((List.range n).map (sortedFreqs n)) (List.replicate n true)) := by
  rw [smoothedPeriodogram]
  simp [hs, hB, periodogram_none_eq]
  rfl

lemma smoothedPeriodogram_some_eq (n m : ℕ) (c : Candidate) (x : Fin n → Fin m → ℂ) (t B : ℕ)
    (ht : 0 < t) (hs : (isSaneTimeSeries c).1 = true) (hB : is_B_valid B n = true) :
    smoothedPeriodogram n m c x B (some (t : ℤ)) =
      .ok (maskSelect (smooth ℂ ((edgeIndices n t B).map (periodogramMatAt n m x)) B)
            (((edgeIndices n t B).map (sortedFreqs n)).map
              (fun f => decide (f ∈ (selectIndices n t).map (sortedFreqs n)))),
        maskSelect ((edgeIndices n t B).map (sortedFreqs n))
          (((edgeIndices n t B).map (sortedFreqs n)).map
            (fun f => decide (f ∈ (selectIndices n t).map (sortedFreqs n))))) := by
  rw [smoothedPeriodogram]
  simp [hs, hB, periodogram_some_eq n m x t B ht]
  rfl

lemma smoothedPeriodogram_some_nonpos (n m : ℕ) (c : Candidate) (x : Fin n → Fin m → ℂ)
    (t : ℤ) (B : ℕ) (ht : t ≤ 0) (hs : (isSaneTimeSeries c).1 = true)
    (hB : is_B_valid B n = true) :
    smoothedPeriodogram n m c x B (some t) = .error ("n_max_freqs must be positive") := by
  rw [smoothedPeriodogram]
  simp [hs, hB, periodogram_some_nonpos n m x t B ht]
  rfl

/-- C7 counterexample: with a sane input, n = 2 samples and the valid
smoothing width B = 1 (so _is_B_valid holds), smoothed_periodogram still
raises when n_max_freqs = 0 is supplied, so raising is not equivalent to B
failing _is_B_valid. -/
theorem c7_counterexample :
    is_B_valid 1 2 = true ∧
    (isSaneTimeSeries ⟨2, false, DtypeKind.realK⟩).1 = true ∧
    smoothedPeriodogram 2 1 ⟨2, false, DtypeKind.realK⟩ (fun _ _ => 0) 1 (some 0) =
      .error ("n_max_freqs must be positive") :=
  ⟨by decide, by decide,
    smoothedPeriodogram_some_nonpos 2 1 _ _ 0 1 (by norm_num) (by decide) (by decide)⟩

/-- C7 (amended): for an input passing validation, smoothed_periodogram
raises iff B fails _is_B_valid or n_max_freqs is supplied and non-positive;
_periodogram succeeds with both options absent, raises whenever exactly one
of n_max_freqs and B is supplied, and with both supplied raises iff
n_max_freqs ≤ 0. -/
theorem c7_parameter_errors (n m : ℕ) (c : Candidate) (x : Fin n → Fin m → ℂ) (B : ℕ)
    (nmf : Option ℤ) (hs : (isSaneTimeSeries c).1 = true) :
    ((smoothedPeriodogram n m c x B nmf).isOk = false ↔
      is_B_valid B n = false ∨ ∃ t : ℤ, nmf = some t ∧ t ≤ 0) ∧
    (periodogram n m x none none).isOk = true ∧
    (∀ t : ℤ, (periodogram n m x (some t) none).isOk = false) ∧
    (∀ b : ℕ, (periodogram n m x none (some b)).isOk = false) ∧
    (∀ t : ℤ, ∀ b : ℕ, ((periodogram n m x (some t) (some b)).isOk = false ↔ t ≤ 0)) := by
  refine ⟨?_, by rw [periodogram_none_eq]; rfl,
    fun t => by rw [periodogram_mismatch_left]; rfl,
    fun b => by rw [periodogram_mismatch_right]; rfl, fun t b => ?_⟩
  · rcases hBv : is_B_valid B n with hf | htr
    · rw [smoothedPeriodogram_invalid_B n m c x B nmf hs hBv]
      simp [Except.isOk, Except.toBool]
    · cases nmf with
      | none =>
        rw [smoothedPeriodogram_none_eq n m c x B hs hBv]
        simp [Except.isOk, Except.toBool]
      | some t =>
        rcases le_or_lt t 0 with hneg | hpos
        · rw [smoothedPeriodogram_some_nonpos n m c x t B hneg hs hBv]
          simp [Except.isOk, Except.toBool]
          exact hneg
        · have hcast : t = ((t.toNat : ℕ) : ℤ) := (Int.toNat_of_nonneg (by omega)).symm
          rw [hcast, smoothedPeriodogram_some_eq n m c x t.toNat B (by omega) hs hBv]
          simp [Except.isOk, Except.toBool]
          omega
  · rcases le_or_lt t 0 with hneg | hpos
    · rw [periodogram_some_nonpos n m x t b hneg]
      simp [Except.isOk, Except.toBool]
      exact hneg
    · have hcast : t = ((t.toNat : ℕ) : ℤ) := (Int.toNat_of_nonneg (by omega)).symm
      rw [hcast, periodogram_some_eq n m x t.toNat b (by omega)]
      simp [Except.isOk, Except.toBool]
      omega

/-- Witness for c7_parameter_errors at a concrete sane candidate and input. -/
theorem c7_parameter_errors_witness :
    ((isSaneTimeSeries ⟨2, false, DtypeKind.realK⟩).1 = true) ∧
    (((smoothedPeriodogram 2 1 ⟨2, false, DtypeKind.realK⟩ (fun _ _ => 0) 1 none).isOk = false ↔
      is_B_valid 1 2 = false ∨ ∃ t : ℤ, (none : Option ℤ) = some t ∧ t ≤ 0) ∧
    (periodogram 2 1 (fun _ _ => 0) none none).isOk = true ∧
    (∀ t : ℤ, (periodogram 2 1 (fun _ _ => 0) (some t) none).isOk = false) ∧
    (∀ b : ℕ, (periodogram 2 1 (fun _ _ => 0) none (some b)).isOk = false) ∧
    (∀ t : ℤ, ∀ b : ℕ,
      ((periodogram 2 1 (fun _ _ => 0) (some t) (some b)).isOk = false ↔ t ≤ 0))) :=
  ⟨by decide, c7_parameter_errors 2 1 ⟨2, false, DtypeKind.realK⟩ (fun _ _ => 0) 1 none (by decide)⟩

/-- C8: the input validator returns (valid, message); it reports invalid
exactly when the candidate is not a genuine 2-D array, has a NaN or infinite
entry, or has a dtype that is neither real nor complex numeric; on failure
the message is the newline-joined concatenation of every violated condition;
smoothed_periodogram raises with that message when validation fails. -/
theorem c8_validator (c : Candidate) (n m : ℕ) (x : Fin n → Fin m → ℂ) (B : ℕ)
    (nmf : Option ℤ) :
    ((isSaneTimeSeries c).1 = true ↔
      (c.ndim = 2 ∧ c.hasNonFinite = false ∧ c.dtypeKind ≠ DtypeKind.otherK)) ∧
    ((isSaneTimeSeries c).2 = String.intercalate ("\n")
      ((if c.ndim = 2 then [] else [("time series must be a 2-dimensional array")]) ++
        ((if c.hasNonFinite then [("time series must contain only finite values")] else []) ++
          (if c.dtypeKind = DtypeKind.otherK then
            [("time series must have a real or complex numeric dtype")] else [])))) ∧
    ((isSaneTimeSeries c).1 = false →
      smoothedPeriodogram n m c x B nmf = .error (isSaneTimeSeries c).2) := by
  obtain ⟨nd, fin, dt⟩ := c
  refine ⟨?_, ?_, fun hs => smoothedPeriodogram_insane n m _ x B nmf hs⟩
  · by_cases h1 : nd = 2 <;> cases fin <;> cases dt <;> simp [isSaneTimeSeries, h1]
  · by_cases h1 : nd = 2 <;> cases fin <;> cases dt <;> simp [isSaneTimeSeries, h1]

/-- Witness for c8_validator at a candidate violating all three conditions,
instantiated on a concrete pipeline call. -/
theorem c8_validator_witness :
    (((isSaneTimeSeries ⟨3, true, DtypeKind.otherK⟩).1 = true ↔
      ((3 : ℕ) = 2 ∧ true = false ∧ DtypeKind.otherK ≠ DtypeKind.otherK)) ∧
    ((isSaneTimeSeries ⟨3, true, DtypeKind.otherK⟩).2 = String.intercalate ("\n")
      ((if (3 : ℕ) = 2 then [] else [("time series must be a 2-dimensional array")]) ++
        ((if true then [("time series must contain only finite values")] else []) ++
          (if DtypeKind.otherK = DtypeKind.otherK then
            [("time series must have a real or complex numeric dtype")] else [])))) ∧
    ((isSaneTimeSeries ⟨3, true, DtypeKind.otherK⟩).1 = false →
      smoothedPeriodogram 2 1 ⟨3, true, DtypeKind.otherK⟩ (fun _ _ => (0 : ℂ)) 1 none
        = .error (isSaneTimeSeries ⟨3, true, DtypeKind.otherK⟩).2)) ∧
    (isSaneTimeSeries ⟨3, true, DtypeKind.otherK⟩).1 = false :=
  ⟨c8_validator ⟨3, true, DtypeKind.otherK⟩ 2 1 (fun _ _ => 0) 1 none, by decide⟩

lemma getD_map_of_lt {α β : Type} (l : List α) (f : α → β) (i : ℕ) (dα : α) (dβ : β)
    (h : i < l.length) : (l.map f).getD i dβ = f (l.getD i dα) := by
  rw [List.getD_eq_getElem _ _ (by simpa using h), List.getElem_map,
    List.getD_eq_getElem _ _ h]

lemma sortedFreqs_mem_map_iff (n t : ℕ) (hn : 1 ≤ n) (e : ℕ) (he : e < n) :
    sortedFreqs n e ∈ (selectIndices n t).map (sortedFreqs n) ↔ e ∈ selectIndices n t := by
  constructor
  · intro h
    obtain ⟨i, hi, hfe⟩ := List.mem_map.mp h
    have hie := sortedFreqs_injOn n i e (by omega) (selectIndices_mem_lt n t hn i hi) he hfe
    rwa [← hie]
  · intro h
    exact List.mem_map.mpr ⟨e, h, rfl⟩

lemma mask_getD_iff (n t B : ℕ) (hn : 1 ≤ n) (j : ℕ) (hj : j < (edgeIndices n t B).length) :
    (((edgeIndices n t B).map (sortedFreqs n)).map
        (fun f => decide (f ∈ (selectIndices n t).map (sortedFreqs n)))).getD j false = true
      ↔ (edgeIndices n t B).getD j 0 ∈ selectIndices n t := by
  have hemem : (edgeIndices n t B).getD j 0 ∈ edgeIndices n t B := by
    rw [List.getD_eq_getElem _ _ hj]
    exact List.getElem_mem hj
  have helt : (edgeIndices n t B).getD j 0 < n :=
    ((mem_edgeIndices n t B _).mp hemem).1
  rw [List.map_map, getD_map_of_lt _ _ j 0 false hj]
  simp only [Function.comp_apply, decide_eq_true_eq]
  exact sortedFreqs_mem_map_iff n t hn _ helt

lemma mask_count (n t B : ℕ) (hn : 1 ≤ n) :
    (((edgeIndices n t B).map (sortedFreqs n)).map
      (fun f => decide (f ∈ (selectIndices n t).map (sortedFreqs n)))).countP (fun b => b)
    = min n t := by
  rw [List.map_map, List.countP_map]
  have hcongr := List.countP_congr (l := edgeIndices n t B)
    (p := ((fun b => b) ∘ ((fun f => decide (f ∈ (selectIndices n t).map (sortedFreqs n))) ∘
      sortedFreqs n)))
    (q := fun j => decide (j ∈ selectIndices n t)) ?_
  · rw [hcongr, List.countP_eq_length_filter,
      nodup_filter_mem_length (edgeIndices n t B) (selectIndices n t)
        (edgeIndices_nodup n t B) (selectIndices_nodup n t hn)
        (selectIndices_subset_edgeIndices n t B hn),
      selectIndices_length]
  · intro j hjmem
    have hjlt : j < n := ((mem_edgeIndices n t B j).mp hjmem).1
    simp only [Function.comp_apply, decide_eq_true_eq]
    exact sortedFreqs_mem_map_iff n t hn j hjlt

/-- C5: with n_max_freqs and B both given, _periodogram retains, around each
selected index, the (B-1)//2 raw indices on each side modulo n_samples,
deduplicated and sorted ascending; the estimation mask is true exactly at
positions holding an originally selected index; and smoothed_periodogram
returns exactly min(n_samples, n_max_freqs) frequencies and matrices. -/
theorem c5_neighbor_retention (n m t B : ℕ) (c : Candidate) (x : Fin n → Fin m → ℂ)
    (hn : 1 ≤ n) (ht : 1 ≤ t) (hB : B % 2 = 1) (hB0 : 0 < B) (hBn : B < n)
    (hs : (isSaneTimeSeries c).1 = true) :
    (∀ j : ℕ, j ∈ edgeIndices n t B ↔
      (j < n ∧ ∃ i ∈ selectIndices n t, ∃ k : ℕ, k < B ∧
        ((((i : ℤ) - (((B - 1) / 2 : ℕ) : ℤ) + (k : ℤ)) % (n : ℤ)).toNat = j))) ∧
    List.Pairwise (· < ·) (edgeIndices n t B) ∧
    (∀ j : ℕ, j < (edgeIndices n t B).length →
      ((((edgeIndices n t B).map (sortedFreqs n)).map
          (fun f => decide (f ∈ (selectIndices n t).map (sortedFreqs n)))).getD j false = true
        ↔ (edgeIndices n t B).getD j 0 ∈ selectIndices n t)) ∧
    (∀ S F, smoothedPeriodogram n m c x B (some (t : ℤ)) = .ok (S, F) →
      S.length = min n t ∧ F.length = min n t) := by
  have hhalf : B / 2 = (B - 1) / 2 := by omega
  have hwin : B / 2 + B / 2 + 1 = B := by omega
  refine ⟨fun j => ?_, edgeIndices_pairwise n t B, fun j hj => mask_getD_iff n t B hn j hj,
    fun S F hSF => ?_⟩
  · rw [mem_edgeIndices]
    constructor
    · rintro ⟨hjn, i, hi, hw⟩
      rw [mem_windowIndices] at hw
      obtain ⟨k, hk, hkj⟩ := hw
      exact ⟨hjn, i, hi, k, by omega, by rw [← hhalf]; exact hkj⟩
    · rintro ⟨hjn, i, hi, k, hk, hkj⟩
      refine ⟨hjn, i, hi, ?_⟩
      rw [mem_windowIndices]
      exact ⟨k, by omega, by rw [hhalf]; exact hkj⟩
  · have hBv : is_B_valid B n = true := by
      simp [is_B_valid]
      omega
    rw [smoothedPeriodogram_some_eq n m c x t B (by omega) hs hBv] at hSF
    have hpair := Except.ok.inj hSF
    have hS : S = maskSelect (smooth ℂ ((edgeIndices n t B).map (periodogramMatAt n m x)) B)
        (((edgeIndices n t B).map (sortedFreqs n)).map
          (fun f => decide (f ∈ (selectIndices n t).map (sortedFreqs n)))) :=
      congrArg Prod.fst hpair |>.symm
    have hF : F = maskSelect ((edgeIndices n t B).map (sortedFreqs n))
        (((edgeIndices n t B).map (sortedFreqs n)).map
          (fun f => decide (f ∈ (selectIndices n t).map (sortedFreqs n)))) :=
      congrArg Prod.snd hpair |>.symm
    constructor
    · rw [hS, maskSelect_length _ _ (by simp [smooth_length]), mask_count n t B hn]
    · rw [hF, maskSelect_length _ _ (by simp), mask_count n t B hn]

/-- Witness for c5_neighbor_retention at n = 5, t = 3, B = 3 with a sane
candidate and the zero signal. -/
theorem c5_neighbor_retention_witness :
    (1 ≤ 5 ∧ 1 ≤ 3 ∧ 3 % 2 = 1 ∧ 0 < 3 ∧ 3 < 5 ∧
      (isSaneTimeSeries ⟨2, false, DtypeKind.realK⟩).1 = true) ∧
    ((∀ j : ℕ, j ∈ edgeIndices 5 3 3 ↔
      (j < 5 ∧ ∃ i ∈ selectIndices 5 3, ∃ k : ℕ, k < 3 ∧
        ((((i : ℤ) - (((3 - 1) / 2 : ℕ) : ℤ) + (k : ℤ)) % (5 : ℤ)).toNat = j))) ∧
    List.Pairwise (· < ·) (edgeIndices 5 3 3) ∧
    (∀ j : ℕ, j < (edgeIndices 5 3 3).length →
      ((((edgeIndices 5 3 3).map (sortedFreqs 5)).map
          (fun f => decide (f ∈ (selectIndices 5 3).map (sortedFreqs 5)))).getD j false = true
        ↔ (edgeIndices 5 3 3).getD j 0 ∈ selectIndices 5 3)) ∧
    (∀ S F, smoothedPeriodogram 5 1 ⟨2, false, DtypeKind.realK⟩ (fun _ _ => 0) 3
        (some (3 : ℤ)) = .ok (S, F) →
      S.length = min 5 3 ∧ F.length = min 5 3)) :=
  ⟨⟨by norm_num, by norm_num, by norm_num, by norm_num, by norm_num, by decide⟩,
    c5_neighbor_retention 5 1 3 3 ⟨2, false, DtypeKind.realK⟩ (fun _ _ => 0)
      (by norm_num) (by norm_num) (by norm_num) (by norm_num) (by norm_num) (by decide)⟩

/-! ### Helper lemmas: Fourier coefficients and the factored path -/

lemma fftOrtho_eq_fftAt (n m : ℕ) (x : Fin n → Fin m → ℂ) (k : ℕ) (c : Fin m) :
    fftOrtho n m x k c = fftAt n m x ((k : ℚ) / n) c := by
  rw [fftOrtho, fftAt]
  congr 1
  refine Finset.sum_congr rfl (fun t _ => ?_)
  congr 1
  by_cases hn : n = 0
  · subst hn
    push_cast
    simp
  · have hn1 : (n : ℂ) ≠ 0 := by exact_mod_cast hn
    push_cast
    field_simp

lemma fftAt_add_int (n m : ℕ) (x : Fin n → Fin m → ℂ) (nu : ℚ) (z : ℤ) (c : Fin m) :
    fftAt n m x (nu + z) c = fftAt n m x nu c := by
  rw [fftAt, fftAt]
  congr 1
  refine Finset.sum_congr rfl (fun t _ => ?_)
  congr 1
  have hsplit : -(2 * (Real.pi : ℂ) * Complex.I) * (((nu + z : ℚ) : ℚ) : ℂ) * ((t : ℕ) : ℂ)
      = -(2 * (Real.pi : ℂ) * Complex.I) * ((nu : ℚ) : ℂ) * ((t : ℕ) : ℂ)
        + ((-(z * (t : ℕ)) : ℤ) : ℂ) * (2 * (Real.pi : ℂ) * Complex.I) := by
    push_cast
    ring
  rw [hsplit, Complex.exp_add, Complex.exp_int_mul_two_pi_mul_I, mul_one]

lemma sortedFft_eq_fftAt (n m : ℕ) (x : Fin n → Fin m → ℂ) (j : ℕ) (c : Fin m)
    (hn : 0 < n) :
    sortedFft n m x j c = fftAt n m x (sortedFreqs n j) c := by
  rw [sortedFft, fftOrtho_eq_fftAt]
  by_cases hc : sortedFreqIdx n j < (n + 1) / 2
  · rw [sortedFreqs, fftfreq, if_pos hc]
  · rw [sortedFreqs, fftfreq, if_neg hc]
    have hn1 : (n : ℚ) ≠ 0 := by
      simpa using (by omega : n ≠ 0)
    have hsplit : ((sortedFreqIdx n j : ℚ)) / n
        = ((sortedFreqIdx n j : ℚ) - n) / n + ((1 : ℤ) : ℚ) := by
      field_simp
    rw [hsplit, fftAt_add_int]

lemma sortedFreqs_wrap (n i k h : ℕ) (hn : 0 < n) (hi : i < n) (hh : h ≤ n) :
    ∃ z : ℤ, sortedFreqs n ((i + k + (n - h)) % n)
      = sortedFreqs n i + ((k : ℚ) - (h : ℚ)) / n + (z : ℚ) := by
  set p := i + k + (n - h) with hp
  obtain ⟨q, hq⟩ : ∃ q : ℕ, p / n = q := ⟨_, rfl⟩
  refine ⟨1 - (q : ℤ), ?_⟩
  rw [sortedFreqs_eq n _ hn (Nat.mod_lt _ hn), sortedFreqs_eq n i hn hi]
  have hdiv := Nat.mod_add_div p n
  rw [hq] at hdiv
  have hmod : ((p % n : ℕ) : ℚ) = (p : ℚ) - (n : ℚ) * (q : ℚ) := by
    have hcast : ((p % n + n * q : ℕ) : ℚ) = (p : ℚ) := by rw [hdiv]
    push_cast at hcast
    linarith
  have hpc : (p : ℚ) = (i : ℚ) + (k : ℚ) + ((n : ℚ) - (h : ℚ)) := by
    rw [hp]
    push_cast [Nat.cast_sub hh]
    ring
  have hn1 : (n : ℚ) ≠ 0 := by
    simpa using (by omega : n ≠ 0)
  rw [hmod, hpc]
  field_simp
  ring

lemma sortedFft_wrap_eq (n m : ℕ) (x : Fin n → Fin m → ℂ) (i k h : ℕ) (c : Fin m)
    (hn : 0 < n) (hi : i < n) (hh : h ≤ n) :
    sortedFft n m x ((i + k + (n - h)) % n) c
      = fftAt n m x (sortedFreqs n i + ((k : ℚ) - (h : ℚ)) / n) c := by
  rw [sortedFft_eq_fftAt n m x _ c hn]
  obtain ⟨z, hz⟩ := sortedFreqs_wrap n i k h hn hi hh
  rw [hz, fftAt_add_int]

lemma periodogramList_length (n m : ℕ) (x : Fin n → Fin m → ℂ) :
    (periodogramList n m x).length = n := by
  simp [periodogramList]

lemma factored_eq_direct (n m : ℕ) (x : Fin n → Fin m → ℂ) (B : ℕ) (i : ℕ)
    (hB : B % 2 = 1) (hB0 : 0 < B) (hBn : B < n) (hi : i < n) (l c : Fin m) :
    smoothedPeriodogramFactoredAt n m x B (sortedFreqs n i) l c
      = ((smooth ℂ (periodogramList n m x) B).getD i 0) l c := by
  have hn : 0 < n := by omega
  have hh : (B - 1) / 2 ≤ n := by omega
  have hd := smooth_getD ℂ (periodogramList n m x) B hB
    (by rw [periodogramList_length]; exact hh) i (by rw [periodogramList_length]; exact hi)
  simp only [periodogramList_length] at hd
  rw [hd, Pi.smul_apply, Pi.smul_apply, Finset.sum_apply, Finset.sum_apply, smul_eq_mul]
  have hsne : ((Real.sqrt B : ℝ) : ℂ) ≠ 0 := by
    have : (0 : ℝ) < Real.sqrt B := Real.sqrt_pos.mpr (by exact_mod_cast hB0)
    simp [Complex.ofReal_ne_zero]
    linarith
  have hs : ((Real.sqrt B : ℝ) : ℂ) * ((Real.sqrt B : ℝ) : ℂ) = (B : ℂ) := by
    rw [← Complex.ofReal_mul, Real.mul_self_sqrt (by positivity)]
    norm_num
  have hterm : ∀ b : Fin B,
      halfPeriodogramAt n m x B (sortedFreqs n i) b l *
        conjC (halfPeriodogramAt n m x B (sortedFreqs n i) b c)
      = (B : ℂ)⁻¹ *
          (fftAt n m x (sortedFreqs n i + (((b : ℕ) : ℚ) - (((B - 1) / 2 : ℕ) : ℚ)) / n) l *
            conjC (fftAt n m x
              (sortedFreqs n i + (((b : ℕ) : ℚ) - (((B - 1) / 2 : ℕ) : ℚ)) / n) c)) := by
    intro b
    simp only [halfPeriodogramAt, conjC, map_div₀, Complex.conj_ofReal]
    rw [div_mul_div_comm, hs, inv_mul_eq_div]
  calc smoothedPeriodogramFactoredAt n m x B (sortedFreqs n i) l c
      = ∑ b : Fin B, halfPeriodogramAt n m x B (sortedFreqs n i) b l *
          conjC (halfPeriodogramAt n m x B (sortedFreqs n i) b c) := by
        rw [smoothedPeriodogramFactoredAt, mxEinsumSum_eq]
        exact Finset.sum_congr rfl (fun b _ => by rw [mxConj_eq])
    _ = ∑ b : Fin B, (B : ℂ)⁻¹ *
          (fftAt n m x (sortedFreqs n i + (((b : ℕ) : ℚ) - (((B - 1) / 2 : ℕ) : ℚ)) / n) l *
            conjC (fftAt n m x
              (sortedFreqs n i + (((b : ℕ) : ℚ) - (((B - 1) / 2 : ℕ) : ℚ)) / n) c)) :=
        Finset.sum_congr rfl (fun b _ => hterm b)
    _ = ∑ k ∈ Finset.range B, (B : ℂ)⁻¹ *
          (fftAt n m x (sortedFreqs n i + (((k : ℕ) : ℚ) - (((B - 1) / 2 : ℕ) : ℚ)) / n) l *
            conjC (fftAt n m x
              (sortedFreqs n i + (((k : ℕ) : ℚ) - (((B - 1) / 2 : ℕ) : ℚ)) / n) c)) :=
        Fin.sum_univ_eq_sum_range (fun k : ℕ => (B : ℂ)⁻¹ *
          (fftAt n m x (sortedFreqs n i + (((k : ℕ) : ℚ) - (((B - 1) / 2 : ℕ) : ℚ)) / n) l *
            conjC (fftAt n m x
              (sortedFreqs n i + (((k : ℕ) : ℚ) - (((B - 1) / 2 : ℕ) : ℚ)) / n) c))) B
    _ = (B : ℂ)⁻¹ * ∑ k ∈ Finset.range B,
          (fftAt n m x (sortedFreqs n i + (((k : ℕ) : ℚ) - (((B - 1) / 2 : ℕ) : ℚ)) / n) l *
            conjC (fftAt n m x
              (sortedFreqs n i + (((k : ℕ) : ℚ) - (((B - 1) / 2 : ℕ) : ℚ)) / n) c)) := by
        rw [← Finset.mul_sum]
    _ = (B : ℂ)⁻¹ * ∑ k ∈ Finset.range B,
          ((periodogramList n m x).getD ((i + k + (n - (B - 1) / 2)) % n) 0) l c := by
        refine congrArg _ (Finset.sum_congr rfl (fun k hk => ?_))
        rw [periodogramList,
          getD_map_range _ _ _ _ (Nat.mod_lt _ hn)]
        show _ = sortedFft n m x ((i + k + (n - (B - 1) / 2)) % n) l *
          conjC (sortedFft n m x ((i + k + (n - (B - 1) / 2)) % n) c)
        rw [sortedFft_wrap_eq n m x i k ((B - 1) / 2) l hn hi hh,
          sortedFft_wrap_eq n m x i k ((B - 1) / 2) c hn hi hh]

/-- C2: for every valid signal and every odd B with 0 < B < N, the
factored-path smoothed periodogram (the half-periodogram factor contracted
with its own conjugate over the B axis) equals, exactly, the direct path
_periodogram(x) followed by _smooth(., B) at every frequency of the direct
ascending grid, in particular at every frequency common to both grids. -/
theorem c2_factored_matches_direct (n m : ℕ) (x : Fin n → Fin m → ℂ) (B : ℕ)
    (hB : B % 2 = 1) (hB0 : 0 < B) (hBn : B < n) :
    periodogram n m x none none
      = .ok (periodogramList n m x, (List.range n).map (sortedFreqs n),
          List.replicate n true) ∧
    ∀ i < n, smoothedPeriodogramFactoredAt n m x B (sortedFreqs n i)
      = (smooth ℂ (periodogramList n m x) B).getD i 0 :=
  ⟨periodogram_none_eq n m x, fun i hi => funext fun l => funext fun c =>
    factored_eq_direct n m x B i hB hB0 hBn hi l c⟩

/-- Witness for c2_factored_matches_direct at n = 2, m = 1, B = 1 and a
constant signal. -/
theorem c2_factored_matches_direct_witness :
    (1 % 2 = 1 ∧ 0 < 1 ∧ 1 < 2) ∧
    (periodogram 2 1 (fun _ _ => 1) none none
      = .ok (periodogramList 2 1 (fun _ _ => 1), (List.range 2).map (sortedFreqs 2),
          List.replicate 2 true) ∧
    ∀ i < 2, smoothedPeriodogramFactoredAt 2 1 (fun _ _ => 1) 1 (sortedFreqs 2 i)
      = (smooth ℂ (periodogramList 2 1 (fun _ _ => 1)) 1).getD i 0) :=
  ⟨⟨by norm_num, by norm_num, by norm_num⟩,
    c2_factored_matches_direct 2 1 (fun _ _ => 1) 1 (by norm_num) (by norm_num) (by norm_num)⟩

/-! ### Helper lemmas: Hermitian matrices with non-negative real diagonal -/

/-- A matrix stack entry that is conjugate-symmetric with real non-negative
diagonal. -/
def HermNonnegDiag (m : ℕ) (A : Fin m → Fin m → ℂ) : Prop :=
  (∀ l c, A l c = conjC (A c l)) ∧ ∀ d, 0 ≤ (A d d).re ∧ (A d d).im = 0

lemma hermNonnegDiag_outer (m : ℕ) (v : Fin m → ℂ) :
    HermNonnegDiag m (fun l c => v l * conjC (v c)) := by
  constructor
  · intro l c
    simp [conjC, mul_comm]
  · intro d
    show 0 ≤ (v d * conjC (v d)).re ∧ (v d * conjC (v d)).im = 0
    rw [show v d * conjC (v d) = ((Complex.normSq (v d) : ℝ) : ℂ) by
      rw [conjC, Complex.mul_conj]]
    constructor
    · simp [Complex.normSq_nonneg]
    · simp

lemma hermNonnegDiag_zero (m : ℕ) : HermNonnegDiag m 0 := by
  constructor
  · intro l c
    simp [conjC]
  · intro d
    simp

lemma hermNonnegDiag_sum (m : ℕ) {ι : Type} (s : Finset ι) (F : ι → (Fin m → Fin m → ℂ))
    (h : ∀ j ∈ s, HermNonnegDiag m (F j)) : HermNonnegDiag m (∑ j ∈ s, F j) := by
  constructor
  · intro l c
    rw [conjC, Finset.sum_apply, Finset.sum_apply, Finset.sum_apply, Finset.sum_apply,
      map_sum]
    exact Finset.sum_congr rfl (fun j hj => (h j hj).1 l c)
  · intro d
    rw [Finset.sum_apply, Finset.sum_apply, Complex.re_sum, Complex.im_sum]
    constructor
    · exact Finset.sum_nonneg (fun j hj => ((h j hj).2 d).1)
    · exact Finset.sum_eq_zero (fun j hj => ((h j hj).2 d).2)

lemma hermNonnegDiag_smul (m : ℕ) (r : ℝ) (hr : 0 ≤ r) (A : Fin m → Fin m → ℂ)
    (h : HermNonnegDiag m A) : HermNonnegDiag m (((r : ℝ) : ℂ) • A) := by
  constructor
  · intro l c
    rw [Pi.smul_apply, Pi.smul_apply, Pi.smul_apply, Pi.smul_apply, smul_eq_mul, smul_eq_mul,
      conjC, map_mul, Complex.conj_ofReal]
    rw [show A l c = conjC (A c l) from h.1 l c]
    rfl
  · intro d
    rw [Pi.smul_apply, Pi.smul_apply, smul_eq_mul, Complex.mul_re, Complex.mul_im]
    obtain ⟨hre, him⟩ := h.2 d
    constructor
    · simp [him]
      positivity
    · simp [him]

lemma hermNonnegDiag_smooth (m : ℕ) (P : List (Fin m → Fin m → ℂ)) (B : ℕ)
    (hP : ∀ Q ∈ P, HermNonnegDiag m Q) : ∀ A ∈ smooth ℂ P B, HermNonnegDiag m A := by
  intro A hA
  rw [smooth] at hA
  obtain ⟨j, _, rfl⟩ := List.mem_map.mp hA
  refine hermNonnegDiag_sum m _ _ (fun k _ => ?_)
  have hsc : ((B : ℂ))⁻¹ = (((B : ℝ)⁻¹ : ℝ) : ℂ) := by
    push_cast
    rfl
  rw [hsc]
  refine hermNonnegDiag_smul m _ (by positivity) _ ?_
  by_cases hlen : j + k < (smoothPad P ((B - 1) / 2)).length
  · have hmem : (smoothPad P ((B - 1) / 2)).getD (j + k) 0 ∈ smoothPad P ((B - 1) / 2) := by
      rw [List.getD_eq_getElem _ _ hlen]
      exact List.getElem_mem hlen
    rw [smoothPad] at hmem
    rcases List.mem_append.mp hmem with hmem2 | htake
    · rcases List.mem_append.mp hmem2 with hdrop | horig
      · exact hP _ (List.mem_of_mem_drop hdrop)
      · exact hP _ horig
    · exact hP _ (List.mem_of_mem_take htake)
  · rw [List.getD_eq_default _ _ (by omega)]
    exact hermNonnegDiag_zero m

lemma maskSelect_subset {α : Type} (xs : List α) (bs : List Bool) :
    ∀ a ∈ maskSelect xs bs, a ∈ xs := by
  intro a ha
  rw [maskSelect] at ha
  obtain ⟨⟨a1, b1⟩, hmem, ha1⟩ := List.mem_map.mp ha
  cases ha1
  exact (List.mem_zip (List.mem_filter.mp hmem).1).1

lemma periodogram_members_outer (n m : ℕ) (x : Fin n → Fin m → ℂ) (nmf : Option ℤ)
    (Bo : Option ℕ) (ps : List (Fin m → Fin m → ℂ)) (fr : List ℚ) (mask : List Bool)
    (h : periodogram n m x nmf Bo = .ok (ps, fr, mask)) :
    ∀ Q ∈ ps, ∃ j, Q = periodogramMatAt n m x j := by
  intro Q hQ
  rcases nmf with _ | t <;> rcases Bo with _ | b
  · rw [periodogram_none_eq] at h
    have hps : ps = periodogramList n m x := by
      have := Except.ok.inj h
      exact (congrArg Prod.fst this).symm
    rw [hps, periodogramList] at hQ
    obtain ⟨j, _, rfl⟩ := List.mem_map.mp hQ
    exact ⟨j, rfl⟩
  · rw [periodogram_mismatch_right] at h
    exact absurd h (by simp)
  · rw [periodogram_mismatch_left] at h
    exact absurd h (by simp)
  · rcases le_or_lt t 0 with hneg | hpos
    · rw [periodogram_some_nonpos n m x t b hneg] at h
      exact absurd h (by simp)
    · have hcast : t = ((t.toNat : ℕ) : ℤ) := (Int.toNat_of_nonneg (by omega)).symm
      rw [hcast, periodogram_some_eq n m x t.toNat b (by omega)] at h
      have hps : ps = (edgeIndices n t.toNat b).map (periodogramMatAt n m x) := by
        have := Except.ok.inj h
        exact (congrArg Prod.fst this).symm
      rw [hps] at hQ
      obtain ⟨j, _, rfl⟩ := List.mem_map.mp hQ
      exact ⟨j, rfl⟩

/-- C9: for every valid signal and every valid odd B, every matrix returned
by smoothed_periodogram at each retained frequency is conjugate-symmetric
with real non-negative diagonal: each raw bin is a rank-1 outer product and
the smoother is an average with non-negative weights 1/B. -/
theorem c9_smoothed_hermitian (n m B : ℕ) (c : Candidate) (x : Fin n → Fin m → ℂ)
    (nmf : Option ℤ) (hB : B % 2 = 1) (hB0 : 0 < B) (hBn : B < n) :
    ∀ S F, smoothedPeriodogram n m c x B nmf = .ok (S, F) →
      ∀ A ∈ S, (∀ l d, A l d = conjC (A d l)) ∧ ∀ d, 0 ≤ (A d d).re ∧ (A d d).im = 0 := by
  intro S F hSF A hA
  have hBv : is_B_valid B n = true := by
    simp [is_B_valid]
    omega
  rcases hsan : (isSaneTimeSeries c).1 with hfalse | htrue
  · rw [smoothedPeriodogram_insane n m c x B nmf hsan] at hSF
    exact absurd hSF (by simp)
  · have hok : ∃ ps fr mask, periodogram n m x nmf (if nmf.isSome then some B else none)
        = .ok (ps, fr, mask) ∧ S = maskSelect (smooth ℂ ps B) mask := by
      rcases nmf with _ | t
      · rw [smoothedPeriodogram_none_eq n m c x B hsan hBv] at hSF
        refine ⟨periodogramList n m x, (List.range n).map (sortedFreqs n),
          List.replicate n true, periodogram_none_eq n m x, ?_⟩
        have := Except.ok.inj hSF
        exact (congrArg Prod.fst this).symm
      · rcases le_or_lt t 0 with hneg | hpos
        · rw [smoothedPeriodogram_some_nonpos n m c x t B hneg hsan hBv] at hSF
          exact absurd hSF (by simp)
        · have hcast : t = ((t.toNat : ℕ) : ℤ) := (Int.toNat_of_nonneg (by omega)).symm
          rw [hcast, smoothedPeriodogram_some_eq n m c x t.toNat B (by omega) hsan hBv] at hSF
          refine ⟨(edgeIndices n t.toNat B).map (periodogramMatAt n m x),
            (edgeIndices n t.toNat B).map (sortedFreqs n),
            ((edgeIndices n t.toNat B).map (sortedFreqs n)).map
              (fun f => decide (f ∈ (selectIndices n t.toNat).map (sortedFreqs n))), ?_, ?_⟩
          · rw [hcast]
            simp only [Option.isSome_some, if_pos]
            exact periodogram_some_eq n m x t.toNat B (by omega)
          · have := Except.ok.inj hSF
            exact (congrArg Prod.fst this).symm
    obtain ⟨ps, fr2, mask, hper, hSdef⟩ := hok
    have houter := periodogram_members_outer n m x nmf _ ps fr2 mask hper
    have hallP : ∀ Q ∈ ps, HermNonnegDiag m Q := by
      intro Q hQ
      obtain ⟨j, rfl⟩ := houter Q hQ
      exact hermNonnegDiag_outer m (sortedFft n m x j)
    have hsm := hermNonnegDiag_smooth m ps B hallP
    have hAS : A ∈ smooth ℂ ps B := maskSelect_subset _ _ A (hSdef ▸ hA)
    exact hsm A hAS

/-- Witness for c9_smoothed_hermitian at n = 2, m = 1, B = 1, full grid. -/
theorem c9_smoothed_hermitian_witness :
    (1 % 2 = 1 ∧ 0 < 1 ∧ 1 < 2) ∧
    (∀ S F, smoothedPeriodogram 2 1 ⟨2, false, DtypeKind.realK⟩ (fun _ _ => 1) 1 none
        = .ok (S, F) →
      ∀ A ∈ S, (∀ l d, A l d = conjC (A d l)) ∧ ∀ d, 0 ≤ (A d d).re ∧ (A d d).im = 0) :=
  ⟨⟨by norm_num, by norm_num, by norm_num⟩,
    c9_smoothed_hermitian 2 1 1 ⟨2, false, DtypeKind.realK⟩ (fun _ _ => 1) none
      (by norm_num) (by norm_num) (by norm_num)⟩

/-! ### Helper lemmas: coherence normalization -/

lemma DsAt_eq (n m : ℕ) (x : Fin n → Fin m → ℂ) (B : ℕ) (f : ℚ) (c : Fin m) :
    DsAt n m x B f c = ∑ k : Fin B, Complex.normSq (halfPeriodogramAt n m x B f k c) := by
  rw [DsAt, mxReal_eq, mxEinsumSum_eq, Complex.re_sum]
  refine Finset.sum_congr rfl (fun k _ => ?_)
  rw [mxConj_eq, conjC, Complex.mul_conj]
  simp

lemma DsAt_nonneg (n m : ℕ) (x : Fin n → Fin m → ℂ) (B : ℕ) (f : ℚ) (c : Fin m) :
    0 ≤ DsAt n m x B f c := by
  rw [DsAt_eq]
  exact Finset.sum_nonneg (fun k _ => Complex.normSq_nonneg _)

lemma sum_normSq_halfCoherence (n m : ℕ) (x : Fin n → Fin m → ℂ) (B : ℕ) (f : ℚ)
    (c : Fin m) (hpos : 0 < DsAt n m x B f c) :
    ∑ k : Fin B, Complex.normSq (halfCoherenceAt n m x B f k c) = 1 := by
  have hsum : ∀ k : Fin B, Complex.normSq (halfCoherenceAt n m x B f k c)
      = Complex.normSq (halfPeriodogramAt n m x B f k c) *
        ((Real.sqrt (DsAt n m x B f c))⁻¹ * (Real.sqrt (DsAt n m x B f c))⁻¹) := by
    intro k
    rw [halfCoherenceAt, Complex.normSq_mul, Complex.normSq_ofReal]
  rw [Finset.sum_congr rfl (fun k _ => hsum k), ← Finset.sum_mul, ← DsAt_eq]
  rw [← Real.sqrt_inv, Real.mul_self_sqrt (by positivity)]
  field_simp

lemma coherenceAt_eq_sum (n m : ℕ) (x : Fin n → Fin m → ℂ) (B : ℕ) (f : ℚ) (l c : Fin m) :
    coherenceAt n m x B f l c
      = ∑ k : Fin B, halfCoherenceAt n m x B f k l * conjC (halfCoherenceAt n m x B f k c) := by
  rw [coherenceAt, mxEinsumSum_eq]
  exact Finset.sum_congr rfl (fun k _ => by rw [mxConj_eq])

lemma coherenceAt_hermitian (n m : ℕ) (x : Fin n → Fin m → ℂ) (B : ℕ) (f : ℚ) (l c : Fin m) :
    coherenceAt n m x B f l c = conjC (coherenceAt n m x B f c l) := by
  rw [coherenceAt_eq_sum, coherenceAt_eq_sum, conjC, map_sum]
  refine Finset.sum_congr rfl (fun k _ => ?_)
  simp only [conjC, map_mul, Complex.conj_conj]
  ring

lemma coherenceAt_diag_one (n m : ℕ) (x : Fin n → Fin m → ℂ) (B : ℕ) (f : ℚ) (c : Fin m)
    (hpos : 0 < DsAt n m x B f c) : coherenceAt n m x B f c c = 1 := by
  rw [coherenceAt_eq_sum]
  have : ∀ k : Fin B, halfCoherenceAt n m x B f k c * conjC (halfCoherenceAt n m x B f k c)
      = ((Complex.normSq (halfCoherenceAt n m x B f k c) : ℝ) : ℂ) := by
    intro k
    rw [conjC, Complex.mul_conj]
  rw [Finset.sum_congr rfl (fun k _ => this k), ← Complex.ofReal_sum,
    sum_normSq_halfCoherence n m x B f c hpos]
  norm_num

lemma coherences_eq (n m : ℕ) (x : Fin n → Fin m → ℂ) (B : ℕ) (freqs : Option (List ℚ))
    (hBv : is_B_valid B n = true) :
    coherences n m x B freqs
      = .ok ((freqs.getD (defaultFreqs n B)).map
          (fun f => fun l c => coherenceAt n m x B f l c),
        freqs.getD (defaultFreqs n B)) := by
  rw [coherences, halfCoherences, halfSmoothedPeriodograms, hBv]
  rfl

lemma fftAt_zero (n m : ℕ) (nu : ℚ) (c : Fin m) :
    fftAt n m (fun _ _ => 0) nu c = 0 := by
  simp [fftAt]

lemma halfPeriodogramAt_zero_signal :
    halfPeriodogramAt 2 1 (fun _ _ => 0) 1 0 0 0 = 0 := by
  rw [halfPeriodogramAt, fftAt_zero]
  simp

lemma coherenceAt_zero_signal : coherenceAt 2 1 (fun _ _ => 0) 1 0 0 0 = 0 := by
  rw [coherenceAt_eq_sum, Fin.sum_univ_one]
  simp [halfCoherenceAt, halfPeriodogramAt_zero_signal, conjC]

lemma DsAt_zero_signal : DsAt 2 1 (fun _ _ => 0) 1 0 0 = 0 := by
  rw [DsAt_eq, Fin.sum_univ_one, halfPeriodogramAt_zero_signal]
  simp

lemma DsAt_const_one : DsAt 2 1 (fun _ _ => 1) 1 0 0 = 2 := by
  rw [DsAt_eq, Fin.sum_univ_one, halfPeriodogramAt, fftAt]
  norm_num [Fin.sum_univ_two, Complex.normSq_div, Complex.normSq_ofReal, Real.mul_self_sqrt]

/-- C1 counterexample: on the zero signal (a valid 2x1 complex array) with
B = 1 and the grid [0], the coherence stack is returned with diagonal entry
0, not 1: the per-channel squared-magnitude sum vanishes, its inverse square
root is degenerate, and no exception restores the unit diagonal. -/
theorem c1_counterexample :
    (1 % 2 = 1 ∧ 0 < 1 ∧ 1 < 2) ∧
    coherences 2 1 (fun _ _ => 0) 1 (some [0])
      = .ok ([fun l c => coherenceAt 2 1 (fun _ _ => 0) 1 0 l c], [0]) ∧
    coherenceAt 2 1 (fun _ _ => 0) 1 0 0 0 = 0 ∧
    (0 : ℂ) ≠ 1 := by
  refine ⟨⟨by norm_num, by norm_num, by norm_num⟩, ?_, coherenceAt_zero_signal, by norm_num⟩
  have h := coherences_eq 2 1 (fun _ _ => 0) 1 (some [0]) (by decide)
  simpa using h

/-- C1 (amended): for every valid B, coherences returns the stack of
per-frequency coherence matrices over the grid; each is Hermitian, and its
diagonal entry at channel c equals 1 whenever the pre-normalization
squared-magnitude sum at (f, c) is strictly positive. -/
theorem c1_coherence_hermitian_unit_diag (n m : ℕ) (x : Fin n → Fin m → ℂ) (B : ℕ)
    (freqs : Option (List ℚ)) (hB : B % 2 = 1) (hB0 : 0 < B) (hBn : B < n) :
    coherences n m x B freqs
      = .ok ((freqs.getD (defaultFreqs n B)).map
          (fun f => fun l c => coherenceAt n m x B f l c),
        freqs.getD (defaultFreqs n B)) ∧
    ∀ f ∈ freqs.getD (defaultFreqs n B), ∀ l c : Fin m,
      (coherenceAt n m x B f l c = conjC (coherenceAt n m x B f c l)) ∧
      (0 < DsAt n m x B f c → coherenceAt n m x B f c c = 1) := by
  have hBv : is_B_valid B n = true := by
    simp [is_B_valid]
    omega
  exact ⟨coherences_eq n m x B freqs hBv, fun f _ l c =>
    ⟨coherenceAt_hermitian n m x B f l c, coherenceAt_diag_one n m x B f c⟩⟩

/-- Witness for c1_coherence_hermitian_unit_diag: constant-one 2x1 signal,
B = 1, grid [0]; the diagonal sum is 2 > 0 and the diagonal entry is 1. -/
theorem c1_coherence_hermitian_unit_diag_witness :
    (1 % 2 = 1 ∧ 0 < 1 ∧ 1 < 2) ∧
    (0 < DsAt 2 1 (fun _ _ => 1) 1 0 0 ∧
      coherenceAt 2 1 (fun _ _ => 1) 1 0 0 0 = 1) := by
  have hpos : 0 < DsAt 2 1 (fun _ _ => 1) 1 0 0 := by
    rw [DsAt_const_one]
    norm_num
  exact ⟨⟨by norm_num, by norm_num, by norm_num⟩, hpos,
    ((c1_coherence_hermitian_unit_diag 2 1 (fun _ _ => 1) 1 (some [0])
      (by norm_num) (by norm_num) (by norm_num)).2 0 (by simp) 0 0).2 hpos⟩

/-- C3: the coherence normalization raises no error on a degenerate
(zero-diagonal) input: on the zero signal, where the cross-spectral diagonal
sum is 0, coherences returns ok and silently yields a degenerate coherence
value instead of raising. -/
theorem c3_degenerate_no_raise :
    (coherences 2 1 (fun _ _ => 0) 1 (some [0])).isOk = true ∧
    DsAt 2 1 (fun _ _ => 0) 1 0 0 = 0 ∧
    coherenceAt 2 1 (fun _ _ => 0) 1 0 0 0 = 0 := by
  refine ⟨?_, DsAt_zero_signal, coherenceAt_zero_signal⟩
  rw [coherences_eq 2 1 (fun _ _ => 0) 1 (some [0]) (by decide)]
  rfl

/-- C10: every off-diagonal coherence entry has magnitude at most 1
algebraically: each normalized half-coherence column is a unit vector in
C^B whenever its pre-normalization squared-magnitude sum is positive, and
the entry is the inner product of two such unit vectors (Cauchy-Schwarz). -/
theorem c10_coherence_cauchy_schwarz (n m : ℕ) (x : Fin n → Fin m → ℂ) (B : ℕ)
    (freqs : Option (List ℚ)) (hB : B % 2 = 1) (hB0 : 0 < B) (hBn : B < n) :
    ∀ f ∈ freqs.getD (defaultFreqs n B), ∀ l c : Fin m,
      0 < DsAt n m x B f l → 0 < DsAt n m x B f c →
      Complex.abs (coherenceAt n m x B f l c) ≤ 1 := by
  intro f _ l c hl hc
  rw [coherenceAt_eq_sum]
  have habs : Complex.abs (∑ k : Fin B,
      halfCoherenceAt n m x B f k l * conjC (halfCoherenceAt n m x B f k c))
      ≤ ∑ k : Fin B, Complex.abs (halfCoherenceAt n m x B f k l) *
          Complex.abs (halfCoherenceAt n m x B f k c) := by
    refine le_trans (Complex.abs.sum_le _ _) (le_of_eq ?_)
    refine Finset.sum_congr rfl (fun k _ => ?_)
    rw [map_mul, conjC, Complex.abs_conj]
  refine le_trans habs ?_
  have h1 : ∑ k : Fin B, Complex.abs (halfCoherenceAt n m x B f k l) ^ 2 = 1 := by
    simp only [Complex.sq_abs]
    exact sum_normSq_halfCoherence n m x B f l hl
  have h2 : ∑ k : Fin B, Complex.abs (halfCoherenceAt n m x B f k c) ^ 2 = 1 := by
    simp only [Complex.sq_abs]
    exact sum_normSq_halfCoherence n m x B f c hc
  have hcs := Finset.sum_mul_sq_le_sq_mul_sq Finset.univ
    (fun k => Complex.abs (halfCoherenceAt n m x B f k l))
    (fun k => Complex.abs (halfCoherenceAt n m x B f k c))
  rw [h1, h2, mul_one] at hcs
  have hnn : 0 ≤ ∑ k : Fin B, Complex.abs (halfCoherenceAt n m x B f k l) *
      Complex.abs (halfCoherenceAt n m x B f k c) :=
    Finset.sum_nonneg (fun k _ => mul_nonneg (Complex.abs.nonneg _) (Complex.abs.nonneg _))
  nlinarith

/-- Witness for c10_coherence_cauchy_schwarz: constant-one 2x1 signal,
B = 1, grid [0], both diagonal sums equal 2 > 0. -/
theorem c10_coherence_cauchy_schwarz_witness :
    (1 % 2 = 1 ∧ 0 < 1 ∧ 1 < 2) ∧
    (0 : ℚ) ∈ (some [(0 : ℚ)] : Option (List ℚ)).getD (defaultFreqs 2 1) ∧
    0 < DsAt 2 1 (fun _ _ => 1) 1 0 0 ∧
    Complex.abs (coherenceAt 2 1 (fun _ _ => 1) 1 0 0 0) ≤ 1 := by
  have hpos : 0 < DsAt 2 1 (fun _ _ => 1) 1 0 0 := by
    rw [DsAt_const_one]
    norm_num
  exact ⟨⟨by norm_num, by norm_num, by norm_num⟩, by simp, hpos,
    c10_coherence_cauchy_schwarz 2 1 (fun _ _ => 1) 1 (some [0])
      (by norm_num) (by norm_num) (by norm_num) 0 (by simp) 0 0 hpos hpos⟩

end SpectralCoherence
